import Mathlib

/-!
Verification of the Medium→Notion translator's extraction and rendering core.

This file shallowly embeds the pure text-processing logic of
`src/medium_notion/notion_client.py` (block rendering, inline-markdown
parsing, code-language normalization, text splitting, request batching)
and the block-dedup rule of the DOM walker embedded in
`src/medium_notion/browser.py` (`_extract_content`).

Texts are modelled as `List Char` (Python strings are sequences of code
points).  Python's `str.strip()` family is modelled over the ASCII
whitespace characters, and `str.lower()` as `Char.toLower`; every claim
settled here is insensitive to the non-ASCII corners of those functions.
Loops are embedded either as fuel-indexed recursions (with the fuel chosen
so that it never runs out on the loop's actual reachable inputs — proved
by the fuel-irrelevance lemmas below) or as well-founded recursions.
-/

set_option autoImplicit false
set_option maxRecDepth 8192

namespace MediumNotion

/-- Article text, as a sequence of code points. -/
abbrev Text := List Char

/-- The whitespace class stripped by Python's `str.strip()` (ASCII part). -/
def isPySpace (c : Char) : Bool :=
  c = ' ' || c = '\t' || c = '\n' || c = '\r' || c = '\x0b' || c = '\x0c'

/-- Python `s.strip()`: drop whitespace from both ends. -/
def pyStrip (s : Text) : Text :=
  ((s.dropWhile isPySpace).reverse.dropWhile isPySpace).reverse

/-- Python `s.lstrip(cs)`: drop from the left every leading character
that belongs to the set `cs`. -/
def pyLstripSet (cs : List Char) (s : Text) : Text :=
  s.dropWhile (fun c => cs.contains c)

/-- Python `s.strip(cs)`: drop characters of the set `cs` from both ends. -/
def pyStripSet (cs : List Char) (s : Text) : Text :=
  ((s.dropWhile (fun c => cs.contains c)).reverse.dropWhile
    (fun c => cs.contains c)).reverse

/-- Does `sub` occur in `text` starting at index `i`? -/
def subAt (text sub : Text) (i : Nat) : Bool :=
  (text.drop i).take sub.length == sub

/-- Python `text.rfind(sub, 0, stop)`: the largest index `i` with
`i + |sub| ≤ stop` at which `sub` occurs, `none` when there is none
(Python returns `-1`). -/
def rfindSub (text sub : Text) (stop : Nat) : Option Nat :=
  (List.range (stop + 1 - sub.length)).reverse.find? (fun i => subAt text sub i)

/-- The split position chosen by one iteration of `_split_text`'s loop:
the index one past the last `。` before `maxLength`, else one past the
start of the last `". "` before `maxLength`, else `maxLength` itself. -/
def splitPos (text : Text) (maxLength : Nat) : Nat :=
  match rfindSub text ['。'] maxLength with
  | some i => i + 1
  | none =>
    match rfindSub text ['.', ' '] maxLength with
    | some i => i + 1
    | none => maxLength

/-- The `while text:` loop of `_split_text`, fuel-indexed.  One unit of
fuel per iteration; every iteration consumes at least one character when
`1 ≤ maxLength`, so `text.length` units never run out (the Python loop
does not terminate when `max_length = 0` and the text is non-blank). -/
def split_text_go : Nat → Text → Nat → List Text
  | 0, _, _ => []
  | fuel + 1, text, maxLength =>
    match text with
    | [] => []
    | c :: cs =>
      if (c :: cs).length ≤ maxLength then [c :: cs]
      else
        (c :: cs).take (splitPos (c :: cs) maxLength) ::
          split_text_go fuel
            (pyStrip ((c :: cs).drop (splitPos (c :: cs) maxLength))) maxLength

/-- `NotionClient._split_text(text, max_length)`. -/
def split_text (text : Text) (maxLength : Nat) : List Text :=
  if text.length ≤ maxLength then [text]
  else split_text_go text.length text maxLength

/-! ### Basic lemmas about the text helpers -/

theorem pyStrip_sublist (s : Text) : (pyStrip s).Sublist s := by
  have h1 : ((s.dropWhile isPySpace).reverse.dropWhile isPySpace).Sublist
      (s.dropWhile isPySpace).reverse := List.dropWhile_sublist _
  have h2 : (pyStrip s).Sublist (s.dropWhile isPySpace) := by
    have := h1.reverse
    simpa [pyStrip] using this
  exact h2.trans (List.dropWhile_sublist _)

theorem pyStrip_length_le (s : Text) : (pyStrip s).length ≤ s.length :=
  (pyStrip_sublist s).length_le

theorem dropWhile_eq_self_of_none {p : Char → Bool} {s : Text}
    (h : ∀ c ∈ s, p c = false) : s.dropWhile p = s := by
  cases s with
  | nil => rfl
  | cons c cs =>
    rw [List.dropWhile_cons]
    simp [h c (by simp)]

theorem pyStrip_eq_self {s : Text}
    (h : ∀ c ∈ s, isPySpace c = false) : pyStrip s = s := by
  unfold pyStrip
  rw [dropWhile_eq_self_of_none h]
  rw [dropWhile_eq_self_of_none (fun c hc => h c (by simpa using hc))]
  simp

theorem rfindSub_bound {text sub : Text} {stop i : Nat}
    (h : rfindSub text sub stop = some i) : i + sub.length ≤ stop := by
  have hmem : i ∈ (List.range (stop + 1 - sub.length)).reverse :=
    List.mem_of_find?_eq_some h
  rw [List.mem_reverse, List.mem_range] at hmem
  omega

theorem splitPos_le {text : Text} {maxLength : Nat} :
    splitPos text maxLength ≤ maxLength := by
  unfold splitPos
  split
  next i h1 =>
    have hb := rfindSub_bound h1
    simp only [List.length_cons, List.length_nil] at hb
    omega
  next h1 =>
    split
    next i h2 =>
      have hb := rfindSub_bound h2
      simp only [List.length_cons, List.length_nil] at hb
      omega
    next h2 => exact Nat.le_refl _

theorem splitPos_pos (text : Text) (maxLength : Nat) (h : 1 ≤ maxLength) :
    1 ≤ splitPos text maxLength := by
  unfold splitPos
  split
  next i h1 => omega
  next h1 =>
    split
    next i h2 => omega
    next h2 => omega

/-! ### `_split_text`: chunk bound, sublist, round-trip, termination -/

theorem split_text_go_length_le {maxLength : Nat} :
    ∀ (fuel : Nat) (text : Text),
      ∀ c ∈ split_text_go fuel text maxLength, c.length ≤ maxLength := by
  intro fuel
  induction fuel with
  | zero => intro text c hc; simp [split_text_go] at hc
  | succ n ih =>
    intro text c hc
    match text with
    | [] => simp [split_text_go] at hc
    | a :: as =>
      rw [split_text_go] at hc
      by_cases hlen : (a :: as).length ≤ maxLength
      · rw [if_pos hlen] at hc
        rw [List.mem_singleton] at hc
        subst hc
        exact hlen
      · rw [if_neg hlen] at hc
        rw [List.mem_cons] at hc
        rcases hc with hc | hc
        · subst hc
          calc ((a :: as).take (splitPos (a :: as) maxLength)).length
              ≤ splitPos (a :: as) maxLength := List.length_take_le _ _
            _ ≤ maxLength := splitPos_le
        · exact ih _ c hc

theorem split_text_go_flatten_sublist (maxLength : Nat) :
    ∀ (fuel : Nat) (text : Text),
      (split_text_go fuel text maxLength).flatten.Sublist text := by
  intro fuel
  induction fuel with
  | zero => intro text; simp [split_text_go]
  | succ n ih =>
    intro text
    match text with
    | [] => simp [split_text_go]
    | a :: as =>
      rw [split_text_go]
      by_cases hlen : (a :: as).length ≤ maxLength
      · rw [if_pos hlen]; simp
      · rw [if_neg hlen, List.flatten_cons]
        have h1 : (split_text_go n
            (pyStrip ((a :: as).drop (splitPos (a :: as) maxLength)))
            maxLength).flatten.Sublist
            ((a :: as).drop (splitPos (a :: as) maxLength)) :=
          (ih _).trans (pyStrip_sublist _)
        have h2 := h1.append_left ((a :: as).take (splitPos (a :: as) maxLength))
        rw [List.take_append_drop] at h2
        exact h2

theorem split_text_go_flatten_of_noSpace {maxLength : Nat} (h : 1 ≤ maxLength) :
    ∀ (fuel : Nat) (text : Text), text.length ≤ fuel →
      (∀ c ∈ text, isPySpace c = false) →
      (split_text_go fuel text maxLength).flatten = text := by
  intro fuel
  induction fuel with
  | zero =>
    intro text hlen _
    have : text = [] := List.eq_nil_of_length_eq_zero (Nat.le_zero.mp hlen)
    subst this
    simp [split_text_go]
  | succ n ih =>
    intro text hlen hns
    match text with
    | [] => simp [split_text_go]
    | a :: as =>
      rw [split_text_go]
      by_cases hle : (a :: as).length ≤ maxLength
      · rw [if_pos hle]; simp
      · rw [if_neg hle, List.flatten_cons]
        have hdropns : ∀ c ∈ (a :: as).drop (splitPos (a :: as) maxLength),
            isPySpace c = false :=
          fun c hc => hns c (List.mem_of_mem_drop hc)
        have hstrip : pyStrip ((a :: as).drop (splitPos (a :: as) maxLength)) =
            (a :: as).drop (splitPos (a :: as) maxLength) :=
          pyStrip_eq_self hdropns
        have hpos := splitPos_pos (a :: as) maxLength h
        have hlen2 : ((a :: as).drop (splitPos (a :: as) maxLength)).length ≤ n := by
          simp only [List.length_drop, List.length_cons]
          simp only [List.length_cons] at hlen
          omega
        rw [hstrip, ih _ hlen2 hdropns, List.take_append_drop]

theorem split_text_go_succ {maxLength : Nat} (h : 1 ≤ maxLength) :
    ∀ (fuel : Nat) (text : Text), text.length ≤ fuel →
      split_text_go (fuel + 1) text maxLength =
        split_text_go fuel text maxLength := by
  intro fuel
  induction fuel with
  | zero =>
    intro text hf
    have : text = [] := List.eq_nil_of_length_eq_zero (Nat.le_zero.mp hf)
    subst this
    simp [split_text_go]
  | succ n ih =>
    intro text hf
    match text with
    | [] => simp [split_text_go]
    | a :: as =>
      rw [split_text_go]
      rw [split_text_go]
      by_cases hle : (a :: as).length ≤ maxLength
      · rw [if_pos hle, if_pos hle]
      · rw [if_neg hle, if_neg hle]
        congr 1
        apply ih
        have hshort := pyStrip_length_le ((a :: as).drop (splitPos (a :: as) maxLength))
        have hpos := splitPos_pos (a :: as) maxLength h
        simp only [List.length_drop, List.length_cons] at hshort
        simp only [List.length_cons] at hf
        omega

theorem split_text_go_fuel_eq {maxLength : Nat} (h : 1 ≤ maxLength) (text : Text) :
    ∀ fuel, text.length ≤ fuel →
      split_text_go fuel text maxLength =
        split_text_go text.length text maxLength := by
  intro fuel
  induction fuel with
  | zero =>
    intro hf
    have : text.length = 0 := Nat.le_zero.mp hf
    rw [this]
  | succ n ih =>
    intro hf
    rcases Nat.lt_or_ge n text.length with hlt | hge
    · have : text.length = n + 1 := by omega
      rw [this]
    · rw [split_text_go_succ h n text hge, ih hge]

theorem split_text_go_cons_ne_nil (fuel : Nat) (a : Char) (as : Text)
    (maxLength : Nat) :
    split_text_go (fuel + 1) (a :: as) maxLength ≠ [] := by
  rw [split_text_go]
  by_cases hle : (a :: as).length ≤ maxLength
  · rw [if_pos hle]; simp
  · rw [if_neg hle]; simp

/-- C1: as stated, the round-trip claim fails — `_split_text` strips
whitespace from the head of each remainder, so `"a b"` with limit 1
splits into `["a", "b"]` and the space is lost. -/
theorem split_text_roundtrip_counterexample :
    split_text "a b".data 1 = ["a".data, "b".data] ∧
      (split_text "a b".data 1).flatten ≠ "a b".data := by
  constructor
  · decide
  · decide

/-- C1 (amended): every chunk of `_split_text(T, L)` has length at most
`L` (for `L ≥ 1`); the concatenation of the chunks is a subsequence of
`T` that drops only whitespace at chunk boundaries — in particular it
reproduces `T` exactly whenever `T` contains no whitespace character. -/
theorem split_text_chunks_bounded_roundtrip (text : Text) (maxLength : Nat)
    (h : 1 ≤ maxLength) :
    (∀ c ∈ split_text text maxLength, c.length ≤ maxLength) ∧
      (split_text text maxLength).flatten.Sublist text ∧
      ((∀ c ∈ text, isPySpace c = false) →
        (split_text text maxLength).flatten = text) := by
  unfold split_text
  by_cases hle : text.length ≤ maxLength
  · rw [if_pos hle]
    refine ⟨?_, by simp, by simp⟩
    intro c hc
    rw [List.mem_singleton] at hc
    subst hc
    exact hle
  · rw [if_neg hle]
    exact ⟨split_text_go_length_le _ _,
      split_text_go_flatten_sublist _ _ _,
      fun hns => split_text_go_flatten_of_noSpace h _ _ (Nat.le_refl _) hns⟩

theorem split_text_chunks_bounded_roundtrip_witness :
    (1 : Nat) ≤ 2 ∧
      ((∀ c ∈ split_text "ab.cd".data 2, c.length ≤ 2) ∧
        (split_text "ab.cd".data 2).flatten.Sublist "ab.cd".data ∧
        ((∀ c ∈ "ab.cd".data, isPySpace c = false) →
          (split_text "ab.cd".data 2).flatten = "ab.cd".data)) :=
  ⟨by decide, split_text_chunks_bounded_roundtrip "ab.cd".data 2 (by decide)⟩

/-- C10: for any limit `L ≥ 1` the splitting loop terminates — the model's
fuel is irrelevant beyond `|T|` iterations, because each iteration removes
at least one character (the split position is at least 1) — and the result
is a non-empty chunk list; the empty string yields `[""]`. -/
theorem split_text_terminates_nonempty (text : Text) (maxLength : Nat)
    (h : 1 ≤ maxLength) :
    (∀ extra, split_text_go (text.length + extra) text maxLength =
        split_text_go text.length text maxLength) ∧
      split_text text maxLength ≠ [] ∧
      split_text ([] : Text) maxLength = [[]] := by
  refine ⟨fun extra => split_text_go_fuel_eq h text _ (by omega), ?_, ?_⟩
  · unfold split_text
    by_cases hle : text.length ≤ maxLength
    · rw [if_pos hle]; simp
    · rw [if_neg hle]
      cases text with
      | nil => simp at hle
      | cons a as =>
        have h1 : (a :: as).length = as.length + 1 := rfl
        rw [h1]
        exact split_text_go_cons_ne_nil as.length a as maxLength
  · unfold split_text
    rw [if_pos (by simp)]

theorem split_text_terminates_nonempty_witness :
    (1 : Nat) ≤ 3 ∧
      (split_text_go ("ab".data.length + 5) "ab".data 3 =
          split_text_go "ab".data.length "ab".data 3 ∧
        split_text "ab".data 3 ≠ [] ∧
        split_text ([] : Text) 3 = [[]]) := by
  refine ⟨by decide, ?_, ?_, ?_⟩
  · exact (split_text_terminates_nonempty "ab".data 3 (by decide)).1 5
  · exact (split_text_terminates_nonempty "ab".data 3 (by decide)).2.1
  · exact (split_text_terminates_nonempty "ab".data 3 (by decide)).2.2

/-! ### `_normalize_code_language` -/

/-- The fixed supported-language set `NOTION_CODE_LANGUAGES` (a Python
set; modelled as a list in the source's listing order — every claim
settled here is independent of iteration order). -/
def NOTION_CODE_LANGUAGES : List String :=
  ["abap", "abc", "agda", "arduino", "ascii art", "assembly",
   "bash", "basic", "bnf", "c", "c#", "c++", "clojure",
   "coffeescript", "coq", "css", "dart", "dhall", "diff",
   "docker", "ebnf", "elixir", "elm", "erlang", "f#", "flow",
   "fortran", "gherkin", "glsl", "go", "graphql", "groovy",
   "haskell", "hcl", "html", "idris", "java", "javascript",
   "json", "julia", "kotlin", "latex", "less", "lisp",
   "livescript", "llvm ir", "lua", "makefile", "markdown",
   "markup", "matlab", "mathematica", "mermaid", "nix",
   "notion formula", "objective-c", "ocaml", "pascal", "perl",
   "php", "plain text", "powershell", "prolog", "protobuf",
   "purescript", "python", "r", "racket", "reason", "ruby",
   "rust", "sass", "scala", "scheme", "scss", "shell",
   "smalltalk", "solidity", "sql", "swift", "toml", "typescript",
   "vb.net", "verilog", "vhdl", "visual basic", "webassembly",
   "xml", "yaml", "java/c/c++/c#"]

/-- The alias table `_LANGUAGE_ALIASES`, in insertion order. -/
def LANGUAGE_ALIASES : List (String × String) :=
  [("js", "javascript"), ("ts", "typescript"), ("py", "python"),
   ("rb", "ruby"), ("sh", "shell"), ("yml", "yaml"),
   ("dockerfile", "docker"), ("objectivec", "objective-c"),
   ("objective c", "objective-c"), ("cplusplus", "c++"),
   ("csharp", "c#"), ("fsharp", "f#"), ("golang", "go"),
   ("tex", "latex"), ("text", "plain text"), ("txt", "plain text"),
   ("", "plain text")]

/-- Python `s.lower()` (ASCII part, sufficient for the claims here). -/
def pyLower (s : String) : String := String.mk (s.data.map Char.toLower)

/-- `str.strip()` lifted to `String`. -/
def pyStripStr (s : String) : String := String.mk (pyStrip s.data)

/-- Is `a` a prefix-relative of `b` in either direction
(`a.startswith(b) or b.startswith(a)`)? -/
def prefixRel (a b : String) : Bool :=
  b.data.isPrefixOf a.data || a.data.isPrefixOf b.data

/-- `_normalize_code_language(language)`: exact match against the
supported set, else the alias table, else a prefix match in either
direction (the Python code iterates a set here; the match taken is
order-dependent but always a member of the supported set), else
`"plain text"`. -/
def normalize_code_language (language : String) : String :=
  let lang := pyLower (pyStripStr language)
  if NOTION_CODE_LANGUAGES.contains lang then lang
  else
    match LANGUAGE_ALIASES.lookup lang with
    | some v => v
    | none =>
      match NOTION_CODE_LANGUAGES.find? (fun supported => prefixRel lang supported) with
      | some supported => supported
      | none => "plain text"

theorem lookup_mem_snd {α β : Type} [BEq α] :
    ∀ (ps : List (α × β)) (k : α) (v : β),
      ps.lookup k = some v → v ∈ ps.map Prod.snd := by
  intro ps
  induction ps with
  | nil => intro k v h; simp [List.lookup] at h
  | cons p ps ih =>
    intro k v h
    match p with
    | (a, b) =>
      rw [List.lookup] at h
      by_cases hk : (k == a) = true
      · simp only [hk] at h
        simp at h
        simp [h]
      · simp only [Bool.not_eq_true] at hk
        simp only [hk] at h
        have := ih k v h
        simp at this ⊢
        exact Or.inr this

theorem alias_values_supported :
    ∀ v ∈ LANGUAGE_ALIASES.map Prod.snd, v ∈ NOTION_CODE_LANGUAGES := by
  decide

theorem supported_nonempty : ∀ l ∈ NOTION_CODE_LANGUAGES, l ≠ "" := by
  decide

/-- C2: `_normalize_code_language` always returns a non-empty member of
the supported set, and any input whose normalized form is neither a
supported name, nor an alias-table key, nor a prefix-relative of a
supported name resolves to `"plain text"`. -/
theorem normalize_code_language_total (s : String) :
    (normalize_code_language s ∈ NOTION_CODE_LANGUAGES ∧
      normalize_code_language s ≠ "") ∧
      (pyLower (pyStripStr s) ∉ NOTION_CODE_LANGUAGES →
        LANGUAGE_ALIASES.lookup (pyLower (pyStripStr s)) = none →
        (∀ l ∈ NOTION_CODE_LANGUAGES, prefixRel (pyLower (pyStripStr s)) l = false) →
        normalize_code_language s = "plain text") := by
  constructor
  · have hmem : normalize_code_language s ∈ NOTION_CODE_LANGUAGES := by
      unfold normalize_code_language
      by_cases hc : NOTION_CODE_LANGUAGES.contains (pyLower (pyStripStr s))
      · rw [if_pos hc]
        exact List.mem_of_elem_eq_true hc
      · rw [if_neg hc]
        split
        next v hv => exact alias_values_supported v (lookup_mem_snd _ _ _ hv)
        next hv =>
          split
          next sup hsup => exact List.mem_of_find?_eq_some hsup
          next hsup => decide
    exact ⟨hmem, supported_nonempty _ hmem⟩
  · intro h1 h2 h3
    unfold normalize_code_language
    rw [if_neg (fun hc => h1 (List.mem_of_elem_eq_true hc))]
    rw [h2]
    rw [List.find?_eq_none.mpr (fun l hl => by simp [h3 l hl])]

theorem normalize_code_language_total_witness :
    ((normalize_code_language "qqq" ∈ NOTION_CODE_LANGUAGES ∧
      normalize_code_language "qqq" ≠ "") ∧
      (pyLower (pyStripStr "qqq") ∉ NOTION_CODE_LANGUAGES →
        LANGUAGE_ALIASES.lookup (pyLower (pyStripStr "qqq")) = none →
        (∀ l ∈ NOTION_CODE_LANGUAGES,
          prefixRel (pyLower (pyStripStr "qqq")) l = false) →
        normalize_code_language "qqq" = "plain text")) ∧
      normalize_code_language "qqq" = "plain text" :=
  ⟨normalize_code_language_total "qqq",
    (normalize_code_language_total "qqq").2 (by decide) (by decide) (by decide)⟩

/-! ### Inline-markdown parsing (`_parse_inline_markdown`, `_text_obj`) -/

/-- A Notion `rich_text` object, as produced by `_text_obj(content, bold,
italic, code, link)`.  Absent annotations are the `false` defaults; the
`link` key is set only for a truthy (non-empty) url, as in the source. -/
structure TextObj where
  content : Text
  bold : Bool
  italic : Bool
  code : Bool
  link : Option Text
  deriving Repr, DecidableEq

/-- `_text_obj`: build a rich-text object (arguments in the source's
order: content, bold, italic, code, link); an empty url (falsy in
Python) sets no link. -/
def text_obj (content : Text) (bold italic code : Bool)
    (link : Option Text) : TextObj :=
  { content := content, bold := bold, italic := italic, code := code,
    link := match link with
      | some [] => none
      | x => x }

/-- Greedy scan of a negated character class up to its closing
delimiter: `takeUntil stop l = some (content, rest)` iff
`l = content ++ stop :: rest` with `content` free of `stop` (the regex
fragment `[^stop]*stop`); `none` when `stop` does not occur. -/
def takeUntil (stop : Char) : Text → Option (Text × Text)
  | [] => none
  | c :: cs =>
    if c = stop then some ([], cs)
    else
      match takeUntil stop cs with
      | some (content, r) => some (c :: content, r)
      | none => none

/-- Match the regex alternative `\[([^\]]+)\]\(([^)]+)\)` at the head of
`l`; on success return the link span and the rest of the input. -/
def matchLinkAt : Text → Option (TextObj × Text)
  | [] => none
  | c :: rest =>
    if c = '[' then
      match takeUntil ']' rest with
      | some (ltext, rest1) =>
        if ltext.isEmpty then none
        else
          match rest1 with
          | b2 :: rest2 =>
            if b2 = '(' then
              match takeUntil ')' rest2 with
              | some (url, rest3) =>
                if url.isEmpty then none
                else some (text_obj ltext false false false (some url), rest3)
              | none => none
            else none
          | [] => none
      | none => none
    else none

/-- Scan for the non-greedy closing `**`: at each position the closing
delimiter is tried first, else one more non-newline character is consumed
into the content (regex `(.+?)\*\*` after the first content character). -/
def goStarStar : Text → Option (Text × Text)
  | [] => none
  | [_] => none
  | c :: c2 :: cs2 =>
    if c = '*' ∧ c2 = '*' then some ([], cs2)
    else if c = '\n' then none
    else
      match goStarStar (c2 :: cs2) with
      | some (content, r) => some (c :: content, r)
      | none => none

/-- Match `\*\*(.+?)\*\*` at the head of `l`. -/
def matchBoldAt (l : Text) : Option (TextObj × Text) :=
  match l with
  | c1 :: c2 :: c3 :: cs =>
    if c1 = '*' ∧ c2 = '*' ∧ c3 ≠ '\n' then
      match goStarStar cs with
      | some (content, r) => some (text_obj (c3 :: content) true false false none, r)
      | none => none
    else none
  | _ => none

/-- Scan for the non-greedy closing `*` (regex `(.+?)\*` after the first
content character). -/
def goStar : Text → Option (Text × Text)
  | [] => none
  | c :: cs =>
    if c = '*' then some ([], cs)
    else if c = '\n' then none
    else match goStar cs with
      | some (content, r) => some (c :: content, r)
      | none => none

/-- Match `\*(.+?)\*` at the head of `l`. -/
def matchItalicAt (l : Text) : Option (TextObj × Text) :=
  match l with
  | c1 :: c2 :: cs =>
    if c1 = '*' ∧ c2 ≠ '\n' then
      match goStar cs with
      | some (content, r) => some (text_obj (c2 :: content) false true false none, r)
      | none => none
    else none
  | _ => none

/-- Match `` `([^`]+)` `` at the head of `l`. -/
def matchCodeAt : Text → Option (TextObj × Text)
  | [] => none
  | c :: rest =>
    if c = '`' then
      match takeUntil '`' rest with
      | some (ctext, rest2) =>
        if ctext.isEmpty then none
        else some (text_obj ctext false false true none, rest2)
      | none => none
    else none

/-- Try the four alternatives at the head of the input, in the regex's
priority order: link, bold, italic, inline code. -/
def tryMatchAt (l : Text) : Option (TextObj × Text) :=
  match matchLinkAt l with
  | some p => some p
  | none =>
    match matchBoldAt l with
    | some p => some p
    | none =>
      match matchItalicAt l with
      | some p => some p
      | none => matchCodeAt l

/-- The `finditer` loop of `_parse_inline_markdown`, fuel-indexed:
`pending` accumulates (reversed) the plain run since the last match; a
match flushes the pending run as a plain span, emits the styled span and
continues after it.  Each step consumes at least one character of the
remaining input, so `|text| + 1` units of fuel never run out. -/
def scan_spans : Nat → Text → Text → List TextObj
  | 0, _, _ => []
  | _ + 1, pending, [] =>
    if pending.isEmpty then [] else [text_obj pending.reverse false false false none]
  | fuel + 1, pending, c :: cs =>
    match tryMatchAt (c :: cs) with
    | some (span, rest) =>
      (if pending.isEmpty then [] else [text_obj pending.reverse false false false none]) ++
        span :: scan_spans fuel [] rest
    | none => scan_spans fuel (c :: pending) cs

/-- `_parse_inline_markdown(text)`: the span list of the scan; an empty
result (only possible for empty input) falls back to one plain span
holding the whole text. -/
def parse_inline_markdown (text : Text) : List TextObj :=
  let parts := scan_spans (text.length + 1) [] text
  if parts.isEmpty then [text_obj text false false false none] else parts

theorem goStarStar_len : ∀ {l content r : Text},
    goStarStar l = some (content, r) → content.length + 2 + r.length = l.length := by
  intro l
  induction l with
  | nil => intro content r h; simp [goStarStar] at h
  | cons c cs ih =>
    intro content r h
    match cs with
    | [] => simp [goStarStar] at h
    | c2 :: cs2 =>
      rw [goStarStar] at h
      by_cases hclose : c = '*' ∧ c2 = '*'
      · rw [if_pos hclose] at h
        simp at h
        rcases h with ⟨h1, h2⟩
        subst h1; subst h2
        simp
        omega
      · rw [if_neg hclose] at h
        by_cases hnl : c = '\n'
        · rw [if_pos hnl] at h; simp at h
        · rw [if_neg hnl] at h
          match hgo : goStarStar (c2 :: cs2) with
          | some (content2, r2) =>
            rw [hgo] at h
            simp at h
            rcases h with ⟨h1, h3⟩
            have := ih hgo
            subst h1; subst h3
            simp at this ⊢
            omega
          | none => rw [hgo] at h; simp at h

theorem goStar_len : ∀ {l content r : Text},
    goStar l = some (content, r) → content.length + 1 + r.length = l.length := by
  intro l
  induction l with
  | nil => intro content r h; simp [goStar] at h
  | cons c cs ih =>
    intro content r h
    rw [goStar] at h
    by_cases hstar : c = '*'
    · rw [if_pos hstar] at h
      simp at h
      rcases h with ⟨h1, h2⟩
      subst h1; subst h2
      simp
      omega
    · rw [if_neg hstar] at h
      by_cases hnl : c = '\n'
      · rw [if_pos hnl] at h; simp at h
      · rw [if_neg hnl] at h
        match hgo : goStar cs with
        | some (content2, r2) =>
          rw [hgo] at h
          simp at h
          rcases h with ⟨h1, h3⟩
          have := ih hgo
          subst h1; subst h3
          simp
          omega
        | none => rw [hgo] at h; simp at h

theorem takeUntil_len {stop : Char} : ∀ {l content r : Text},
    takeUntil stop l = some (content, r) →
      content.length + 1 + r.length = l.length := by
  intro l
  induction l with
  | nil => intro content r h; simp [takeUntil] at h
  | cons c cs ih =>
    intro content r h
    rw [takeUntil] at h
    by_cases hstop : c = stop
    · rw [if_pos hstop] at h
      simp at h
      rcases h with ⟨h1, h2⟩
      subst h1; subst h2
      simp
      omega
    · rw [if_neg hstop] at h
      match hgo : takeUntil stop cs with
      | some (content2, r2) =>
        rw [hgo] at h
        simp at h
        rcases h with ⟨h1, h3⟩
        have := ih hgo
        subst h1; subst h3
        simp
        omega
      | none => rw [hgo] at h; simp at h

theorem matchLinkAt_shrink : ∀ {l : Text} {s : TextObj} {r : Text},
    matchLinkAt l = some (s, r) → s.content.length + r.length + 2 ≤ l.length := by
  intro l s r h
  match l with
  | [] => simp [matchLinkAt] at h
  | c :: rest =>
    rw [matchLinkAt] at h
    split at h
    next hc =>
      split at h
      next ltext rest1 heq1 =>
        split at h
        next => simp at h
        next he =>
          split at h
          next b2 rest2 =>
            split at h
            next hb =>
              split at h
              next url rest3 heq2 =>
                split at h
                next => simp at h
                next hu =>
                  simp at h
                  rcases h with ⟨hs, hr⟩
                  have hlen1 := takeUntil_len heq1
                  have hlen2 := takeUntil_len heq2
                  subst hs; subst hr
                  simp only [text_obj, List.length_cons] at hlen1 hlen2 ⊢
                  omega
              next heq2 => simp at h
            next hb => simp at h
          next => simp at h
      next heq1 => simp at h
    next hc => simp at h

theorem matchBoldAt_shrink : ∀ {l : Text} {s : TextObj} {r : Text},
    matchBoldAt l = some (s, r) → s.content.length + r.length + 2 ≤ l.length := by
  intro l s r h
  match l with
  | [] => simp [matchBoldAt] at h
  | [c1] => simp [matchBoldAt] at h
  | [c1, c2] => simp [matchBoldAt] at h
  | c1 :: c2 :: c3 :: cs =>
    rw [matchBoldAt] at h
    by_cases hpre : c1 = '*' ∧ c2 = '*' ∧ c3 ≠ '\n'
    · rw [if_pos hpre] at h
      match hgo : goStarStar cs with
      | none => rw [hgo] at h; simp at h
      | some (content, r2) =>
        rw [hgo] at h
        simp at h
        rcases h with ⟨hs, hr⟩
        have := goStarStar_len hgo
        subst hs; subst hr
        simp only [text_obj, List.length_cons] at this ⊢
        omega
    · rw [if_neg hpre] at h; simp at h

theorem matchItalicAt_shrink : ∀ {l : Text} {s : TextObj} {r : Text},
    matchItalicAt l = some (s, r) → s.content.length + r.length + 2 ≤ l.length := by
  intro l s r h
  match l with
  | [] => simp [matchItalicAt] at h
  | [c1] => simp [matchItalicAt] at h
  | c1 :: c2 :: cs =>
    rw [matchItalicAt] at h
    by_cases hpre : c1 = '*' ∧ c2 ≠ '\n'
    · rw [if_pos hpre] at h
      match hgo : goStar cs with
      | none => rw [hgo] at h; simp at h
      | some (content, r2) =>
        rw [hgo] at h
        simp at h
        rcases h with ⟨hs, hr⟩
        have := goStar_len hgo
        subst hs; subst hr
        simp only [text_obj, List.length_cons] at this ⊢
        omega
    · rw [if_neg hpre] at h; simp at h

theorem matchCodeAt_shrink : ∀ {l : Text} {s : TextObj} {r : Text},
    matchCodeAt l = some (s, r) → s.content.length + r.length + 2 ≤ l.length := by
  intro l s r h
  match l with
  | [] => simp [matchCodeAt] at h
  | c :: rest =>
    rw [matchCodeAt] at h
    split at h
    next hc =>
      split at h
      next ctext rest2 heq1 =>
        split at h
        next => simp at h
        next he =>
          simp at h
          rcases h with ⟨hs, hr⟩
          have := takeUntil_len heq1
          subst hs; subst hr
          simp only [text_obj, List.length_cons] at this ⊢
          omega
      next heq1 => simp at h
    next hc => simp at h

theorem tryMatchAt_shrink {l : Text} {s : TextObj} {r : Text}
    (h : tryMatchAt l = some (s, r)) : s.content.length + r.length + 2 ≤ l.length := by
  unfold tryMatchAt at h
  match h1 : matchLinkAt l with
  | some p =>
    rw [h1] at h
    simp at h
    subst h
    exact matchLinkAt_shrink h1
  | none =>
    rw [h1] at h
    match h2 : matchBoldAt l with
    | some p =>
      rw [h2] at h
      simp at h
      subst h
      exact matchBoldAt_shrink h2
    | none =>
      rw [h2] at h
      match h3 : matchItalicAt l with
      | some p =>
        rw [h3] at h
        simp at h
        subst h
        exact matchItalicAt_shrink h3
      | none =>
        rw [h3] at h
        exact matchCodeAt_shrink h

/-- Total number of content characters carried by a span list. -/
def spanTextLength (parts : List TextObj) : Nat :=
  (parts.map (fun p => p.content.length)).sum

theorem scan_spans_shrink :
    ∀ (fuel : Nat) (pending rest : Text),
      spanTextLength (scan_spans fuel pending rest) ≤
        pending.length + rest.length := by
  intro fuel
  induction fuel with
  | zero => intro pending rest; simp [scan_spans, spanTextLength]
  | succ n ih =>
    intro pending rest
    match rest with
    | [] =>
      rw [scan_spans]
      by_cases hp : pending.isEmpty
      · rw [if_pos hp]; simp [spanTextLength]
      · rw [if_neg hp]; simp [spanTextLength, text_obj]
    | c :: cs =>
      rw [scan_spans]
      split
      next span rest2 hm =>
        have hshrink := tryMatchAt_shrink hm
        have hrec := ih [] rest2
        simp only [List.length_cons] at hshrink
        simp only [List.length_nil, Nat.zero_add] at hrec
        by_cases hp : pending.isEmpty
        · rw [if_pos hp]
          have hpe : pending = [] := by simpa using hp
          subst hpe
          simp only [spanTextLength, List.nil_append, List.map_cons,
            List.sum_cons, List.length_nil, List.length_cons] at hrec ⊢
          omega
        · rw [if_neg hp]
          simp only [spanTextLength, List.map_append, List.sum_append,
            List.map_cons, List.sum_cons, List.map_nil, List.sum_nil,
            text_obj, List.length_reverse, List.length_cons] at hrec ⊢
          omega
      next hm =>
        have hrec := ih (c :: pending) cs
        simp only [List.length_cons] at hrec ⊢
        omega

theorem scan_spans_succ :
    ∀ (fuel : Nat) (pending rest : Text), rest.length < fuel →
      scan_spans (fuel + 1) pending rest = scan_spans fuel pending rest := by
  intro fuel
  induction fuel with
  | zero => intro pending rest h; omega
  | succ n ih =>
    intro pending rest h
    match rest with
    | [] => rw [scan_spans, scan_spans]
    | c :: cs =>
      rw [scan_spans, scan_spans]
      split
      next span rest2 hm =>
        have hshrink := tryMatchAt_shrink hm
        simp only [List.length_cons] at hshrink h
        rw [ih [] rest2 (by omega)]
      next hm =>
        simp only [List.length_cons] at h
        rw [ih (c :: pending) cs (by omega)]

theorem scan_spans_fuel_eq (pending rest : Text) :
    ∀ fuel, rest.length < fuel →
      scan_spans fuel pending rest = scan_spans (rest.length + 1) pending rest := by
  intro fuel
  induction fuel with
  | zero => intro hf; omega
  | succ n ih =>
    intro hf
    rcases Nat.lt_or_ge rest.length n with hlt | hge
    · rw [scan_spans_succ n pending rest hlt, ih hlt]
    · have : rest.length = n := by omega
      rw [this]

/-- The inline text of the spec's Scenario 4. -/
def scenarioInlineText : Text :=
  "See [docs](http://x) for **bold** and *it* and `code`.".data

/-- C7: counterexample — on the Scenario 4 input the inline parser
produces nine spans (the listed plain/link/plain/bold/plain/italic/
plain/code/plain sequence), not five as the claim's count states. -/
theorem parse_inline_count_counterexample :
    (parse_inline_markdown scenarioInlineText).length = 9 ∧
      (parse_inline_markdown scenarioInlineText).length ≠ 5 := by
  constructor
  · decide
  · decide

/-- C7 (amended): parsing the Scenario 4 inline text produces exactly the
nine spans plain `"See "`, link `("docs", "http://x")`, plain `" for "`,
bold `"bold"`, plain `" and "`, italic `"it"`, plain `" and "`, code
`"code"`, plain `"."`, in left-to-right order, the four styles being
recognized with priority link, bold, italic, inline code. -/
theorem parse_inline_scenario4 :
    parse_inline_markdown scenarioInlineText =
      [text_obj "See ".data false false false none,
       text_obj "docs".data false false false (some "http://x".data),
       text_obj " for ".data false false false none,
       text_obj "bold".data true false false none,
       text_obj " and ".data false false false none,
       text_obj "it".data false true false none,
       text_obj " and ".data false false false none,
       text_obj "code".data false false true none,
       text_obj ".".data false false false none] := by
  decide

/-! ### Notion blocks and the block builders -/

/-- A rendered Notion block, carrying exactly the content-relevant data
of the dicts built by the `_*_block` helpers. -/
inductive Block
  | tableOfContents
  | divider
  | heading (headingLevel : Nat) (rich : List TextObj)
  | callout (emoji : String) (rich : List TextObj)
  | code (rich : List TextObj) (language : String)
  | quote (rich : List TextObj)
  | bulleted (rich : List TextObj)
  | numbered (rich : List TextObj)
  | paragraph (rich : List TextObj)
  | bookmark (url : Text)
  deriving Repr, DecidableEq

/-- Notion ブロックの最大文字数 (`MAX_BLOCK_TEXT_LENGTH`). -/
def MAX_BLOCK_TEXT_LENGTH : Nat := 2000

/-- `_heading_block(text, level)`: the block type is `heading_{min(level, 3)}`. -/
def heading_block (text : Text) (level : Nat) : Block :=
  Block.heading (min level 3) [text_obj text false false false none]

/-- `_callout_block(text, emoji)`. -/
def callout_block (text : Text) (emoji : String) : Block :=
  Block.callout emoji [text_obj text false false false none]

/-- `_code_block(code, language)`. -/
def code_block (code : Text) (language : String) : Block :=
  Block.code [text_obj code false false false none] language

/-- `_quote_block(text)`. -/
def quote_block (text : Text) : Block :=
  Block.quote [text_obj text false false false none]

/-- `_bulleted_list_block(text)`. -/
def bulleted_list_block (text : Text) : Block :=
  Block.bulleted [text_obj text false false false none]

/-- `_numbered_list_block(text)`. -/
def numbered_list_block (text : Text) : Block :=
  Block.numbered [text_obj text false false false none]

/-- `_paragraph_block(text, italic)`. -/
def paragraph_block (text : Text) (italic : Bool) : Block :=
  Block.paragraph [text_obj text false italic false none]

/-- `_rich_paragraph_block(text)`: a paragraph whose rich text is the
inline-markdown parse of `text`. -/
def rich_paragraph_block (text : Text) : Block :=
  Block.paragraph (parse_inline_markdown text)

/-- `_bookmark_block(url)`. -/
def bookmark_block (url : Text) : Block := Block.bookmark url

/-- The rich-text array of a block (empty for the structural kinds). -/
def blockTexts : Block → List TextObj
  | Block.heading _ rich => rich
  | Block.callout _ rich => rich
  | Block.code rich _ => rich
  | Block.quote rich => rich
  | Block.bulleted rich => rich
  | Block.numbered rich => rich
  | Block.paragraph rich => rich
  | Block.tableOfContents => []
  | Block.divider => []
  | Block.bookmark _ => []

/-! ### Text-splitting helpers used by the renderer -/

/-- Python `s.split(sep)[k]`-style helpers.  `splitOnChar` is
`s.split(c)` for a one-character separator. -/
def splitOnChar (sep : Char) : Text → List Text
  | [] => [[]]
  | c :: cs =>
    if c = sep then [] :: splitOnChar sep cs
    else
      match splitOnChar sep cs with
      | t :: ts => (c :: t) :: ts
      | [] => [[c]]

/-- Python `s.find(sub)`: index of the first occurrence, `none` for `-1`. -/
def findSub (sep : Text) : Text → Option Nat
  | [] => if sep.isEmpty then some 0 else none
  | c :: cs =>
    if sep.isPrefixOf (c :: cs) then some 0
    else (findSub sep cs).map (fun i => i + 1)

/-- The loop of Python `s.split(sep)` for a non-empty separator,
fuel-indexed: cut at the first occurrence of `sep` and continue after it.
Each step consumes at least one character, so `|s| + 1` units of fuel
never run out. -/
def splitOnSub_go : Nat → Text → Text → List Text
  | 0, _, s => [s]
  | fuel + 1, sep, s =>
    match findSub sep s with
    | none => [s]
    | some i =>
      if sep.isEmpty then [s]
      else s.take i :: splitOnSub_go fuel sep (s.drop (i + sep.length))

/-- Python `s.split(sep)` (for the non-empty separators used in the
source: `"\n\n"`). -/
def splitOnSub (sep s : Text) : List Text := splitOnSub_go (s.length + 1) sep s

/-- Python `s.split(sep, 1)` for a one-character separator: split at the
first occurrence only. -/
def splitOnCharOnce (sep : Char) (s : Text) : List Text :=
  match takeUntil sep s with
  | some (before, after) => [before, after]
  | none => [s]

/-! ### The paragraph classifier of `_build_content_blocks` -/

/-- `re.match(r"^\d+\.\s", para)`: one or more digits, a dot, then one
whitespace character (the `\s` class, ASCII part). -/
def matchesOrderedItem (l : Text) : Bool :=
  let ds := l.takeWhile (fun c => c.isDigit)
  if ds.isEmpty then false
  else
    match l.drop ds.length with
    | d :: w :: _ => decide (d = '.') && isPySpace w
    | _ => false

/-- `re.match(r"^\d+\.\s+(.*)", line)`: on success, group 1 — the text
after the digits, the dot and the (greedy) whitespace run.  The call
sites only pass single lines, on which `(.*)` is the whole remainder. -/
def orderedItemContent (line : Text) : Option Text :=
  let ds := line.takeWhile (fun c => c.isDigit)
  if ds.isEmpty then none
  else
    match line.drop ds.length with
    | d :: rest =>
      if d = '.' then
        let ws := rest.takeWhile isPySpace
        if ws.isEmpty then none else some (rest.drop ws.length)
      else none
    | [] => none

/-- The numbered-list branch: one numbered block per line matching the
item pattern (after stripping the line), others skipped. -/
def numbered_path (para : Text) : List Block :=
  ((splitOnChar '\n' para).map (fun line =>
    match orderedItemContent (pyStrip line) with
    | some content => [numbered_list_block (pyStrip content)]
    | none => [])).flatten

/-- The bulleted-list branch: one bulleted block per stripped line that
starts with `"- "` or `"* "`. -/
def bullet_path (para : Text) : List Block :=
  ((splitOnChar '\n' para).map (fun line0 =>
    if "- ".data.isPrefixOf (pyStrip line0) || "* ".data.isPrefixOf (pyStrip line0) then
      [bulleted_list_block (pyStrip ((pyStrip line0).drop 2))]
    else [])).flatten

/-- The code-fence branch: strip backticks and whitespace; a first line
(the language tag) is recognized only when the first newline is at an
index greater than 0; the payload is split into chunks that become
sibling code blocks sharing the normalized language. -/
def code_path (para : Text) : List Block :=
  let stripped := pyStrip (pyStripSet ['`'] para)
  let p : String × Text :=
    match findSub ['\n'] stripped with
    | some i =>
      if 0 < i then
        (String.mk (pyStrip (stripped.take i)), stripped.drop (i + 1))
      else ("plain text", stripped)
    | none => ("plain text", stripped)
  (split_text p.2 MAX_BLOCK_TEXT_LENGTH).map
    (fun chunk => code_block chunk (normalize_code_language p.1))

/-- The blockquote branch's text: every line `lstrip`-ped of the
character set `"> "` and then stripped, joined with newlines. -/
def quote_text_of (para : Text) : Text :=
  List.intercalate ['\n']
    ((splitOnChar '\n' para).map (fun line => pyStrip (pyLstripSet ['>', ' '] line)))

/-- One iteration of the paragraph loop of `_build_content_blocks`
(for an already stripped, non-empty paragraph): the `if/elif` chain, in
source order — headings, code fence, blockquote, numbered list, bulleted
list, image caption, rich paragraph. -/
def para_to_blocks (para : Text) : List Block :=
  if "### ".data.isPrefixOf para then [heading_block (para.drop 4) 3]
  else if "## ".data.isPrefixOf para then [heading_block (para.drop 3) 2]
  else if "# ".data.isPrefixOf para then [heading_block (para.drop 2) 1]
  else if "```".data.isPrefixOf para then code_path para
  else if "> ".data.isPrefixOf para then [quote_block (quote_text_of para)]
  else if matchesOrderedItem para then numbered_path para
  else if "- ".data.isPrefixOf para || "* ".data.isPrefixOf para then bullet_path para
  else if "[画像:".data.isPrefixOf para then [paragraph_block para true]
  else (split_text para MAX_BLOCK_TEXT_LENGTH).map rich_paragraph_block

/-! ### `_build_summary_blocks` and `_build_content_blocks` -/

/-- The keys of `emoji_map`, in insertion order (each maps to itself). -/
def EMOJI_KEYS : List String := ["📖", "💡", "🛠", "🔗"]

/-- One section of `_build_summary_blocks`'s loop: skip when blank after
stripping; otherwise split off the header at the first newline, pick the
emoji whose key prefixes the header (default `"📝"`), emit a `heading_3`
for the header and — when the body is non-empty — a callout holding the
body truncated to `MAX_BLOCK_TEXT_LENGTH`. -/
def section_blocks (sec : Text) : List Block :=
  let s := pyStrip sec
  if s.isEmpty then []
  else
    let hb : Text × Text :=
      match takeUntil '\n' s with
      | some (before, after) => (pyStrip before, pyStrip after)
      | none => (pyStrip s, [])
    let emoji : String :=
      match EMOJI_KEYS.find? (fun k => k.data.isPrefixOf hb.1) with
      | some k => k
      | none => "📝"
    [heading_block hb.1 3] ++
      (if hb.2.isEmpty then []
       else [callout_block (hb.2.take MAX_BLOCK_TEXT_LENGTH) emoji])

/-- `_build_summary_blocks(summary)`: sections are the `"\n\n"`-separated
pieces; when no section produced a block, fall back to one generic
callout holding the summary truncated to `MAX_BLOCK_TEXT_LENGTH`. -/
def build_summary_blocks (summary : Text) : List Block :=
  let blocks := ((splitOnSub "\n\n".data summary).map section_blocks).flatten
  if blocks.isEmpty then
    [callout_block (summary.take MAX_BLOCK_TEXT_LENGTH) "📝"]
  else blocks

/-- The fields of `MediumArticle` that the renderer reads. -/
structure MediumArticle where
  url : Text

/-- The fields of `TranslationResult` that the renderer reads
(`summary` is `Optional[str]`, default `None`). -/
structure TranslationResult where
  original : MediumArticle
  japanese_title : Text
  japanese_content : Text
  summary : Option Text

/-- `_build_content_blocks(result)`: table of contents and divider, the
summary section when `result.summary` is truthy, the `翻訳` heading, the
classified paragraphs (blank-line separated, stripped, empties skipped),
then a divider and the source bookmark. -/
def build_content_blocks (result : TranslationResult) : List Block :=
  [Block.tableOfContents, Block.divider] ++
    (match result.summary with
     | some s =>
       if s.isEmpty then []
       else [heading_block "要約".data 2] ++ build_summary_blocks s ++ [Block.divider]
     | none => []) ++
    [heading_block "翻訳".data 2] ++
    ((splitOnSub "\n\n".data result.japanese_content).map (fun para0 =>
      if (pyStrip para0).isEmpty then [] else para_to_blocks (pyStrip para0))).flatten ++
    [Block.divider, bookmark_block result.original.url]

/-! ### `create_page` batching -/

/-- Notion API limit: `MAX_BLOCKS_PER_REQUEST`. -/
def MAX_BLOCKS_PER_REQUEST : Nat := 100

/-- The append loop of `create_page`: `remaining` is sent in order, in
chunks of `MAX_BLOCKS_PER_REQUEST`. -/
def chunkList {α : Type} : List α → List (List α)
  | [] => []
  | x :: xs =>
    (x :: xs).take MAX_BLOCKS_PER_REQUEST ::
      chunkList ((x :: xs).drop MAX_BLOCKS_PER_REQUEST)
termination_by l => l.length
decreasing_by
  simp [MAX_BLOCKS_PER_REQUEST]
  omega

/-- The block batches sent by `create_page`: the page is created with the
first `MAX_BLOCKS_PER_REQUEST` children, the remaining children are
appended in order in chunks of `MAX_BLOCKS_PER_REQUEST`. -/
def create_page_batches (children : List Block) : List (List Block) :=
  children.take MAX_BLOCKS_PER_REQUEST ::
    chunkList (children.drop MAX_BLOCKS_PER_REQUEST)

theorem chunkList_flatten_le {α : Type} :
    ∀ (n : Nat) (l : List α), l.length ≤ n →
      (chunkList l).flatten = l ∧ ∀ b ∈ chunkList l, b.length ≤ MAX_BLOCKS_PER_REQUEST := by
  intro n
  induction n with
  | zero =>
    intro l h
    have : l = [] := List.eq_nil_of_length_eq_zero (Nat.le_zero.mp h)
    subst this
    simp [chunkList]
  | succ n ih =>
    intro l h
    match l with
    | [] => simp [chunkList]
    | x :: xs =>
      rw [chunkList]
      have hdrop : ((x :: xs).drop MAX_BLOCKS_PER_REQUEST).length ≤ n := by
        simp only [List.length_drop, List.length_cons, MAX_BLOCKS_PER_REQUEST]
        simp only [List.length_cons] at h
        omega
      have hrec := ih _ hdrop
      constructor
      · rw [List.flatten_cons, hrec.1, List.take_append_drop]
      · intro b hb
        rw [List.mem_cons] at hb
        rcases hb with hb | hb
        · subst hb
          exact List.length_take_le _ _
        · exact hrec.2 b hb

/-- C6: the publish batching of `create_page` conserves the rendered
block sequence — the page is created with the first
`min(N, MAX_BLOCKS_PER_REQUEST)` blocks, every batch carries at most
`MAX_BLOCKS_PER_REQUEST` blocks, and concatenating the create batch and
the append chunks in call order reproduces the original sequence exactly. -/
theorem create_page_batches_conserve (children : List Block) :
    (create_page_batches children).flatten = children ∧
      (create_page_batches children).head? =
        some (children.take MAX_BLOCKS_PER_REQUEST) ∧
      (children.take MAX_BLOCKS_PER_REQUEST).length =
        min children.length MAX_BLOCKS_PER_REQUEST ∧
      ∀ b ∈ create_page_batches children, b.length ≤ MAX_BLOCKS_PER_REQUEST := by
  have hrec := chunkList_flatten_le (children.drop MAX_BLOCKS_PER_REQUEST).length
    (children.drop MAX_BLOCKS_PER_REQUEST) (Nat.le_refl _)
  refine ⟨?_, rfl, ?_, ?_⟩
  · rw [create_page_batches, List.flatten_cons, hrec.1, List.take_append_drop]
  · rw [List.length_take]
    omega
  · intro b hb
    rw [create_page_batches, List.mem_cons] at hb
    rcases hb with hb | hb
    · subst hb
      exact List.length_take_le _ _
    · exact hrec.2 b hb

/-! ### The DOM walker's block dedup (`_extract_content` in `browser.py`) -/

/-- A block candidate seen by the DOM walker: its tag kind and its
(trimmed) text. -/
structure RawBlock where
  tag : String
  text : Text
  deriving Repr, DecidableEq

/-- The dedup key: the tag together with the first 80 characters of the
text (`tag + ':' + text.substring(0, 80)`; the concatenated JS string is
modelled as a pair, which identifies keys whenever the JS string does for
the colon-free tag names the walker dispatches on). -/
def dedupKey (b : RawBlock) : String × Text := (b.tag, b.text.take 80)

/-- The dedup rule applied along one extraction pass: a block whose key
was already seen is suppressed iff its text length is under 200
(`if (seen.has(key) && text.length < 200) return; seen.add(key);`). -/
def dedup_pass : List (String × Text) → List RawBlock → List RawBlock
  | _seen, [] => []
  | seen, b :: bs =>
    if seen.contains (dedupKey b) ∧ b.text.length < 200 then dedup_pass seen bs
    else b :: dedup_pass (dedupKey b :: seen) bs

/-- C5: counterexample — a block whose text has length exactly 200,
repeated, is kept twice (the code suppresses only when `length < 200`),
while the claim says a repeat of length exactly 200 is suppressed. -/
theorem dedup_exact200_counterexample :
    dedup_pass [] [⟨"p", List.replicate 200 'a'⟩, ⟨"p", List.replicate 200 'a'⟩] =
      [⟨"p", List.replicate 200 'a'⟩, ⟨"p", List.replicate 200 'a'⟩] ∧
      (List.replicate 200 'a').length = 200 := by
  constructor
  · decide
  · decide

/-- C5 (amended): within one pass, feeding the same (kind, text) block
twice yields exactly one emitted block when the text length is strictly
under 200, and both occurrences when the length is 200 or more (the
suppression condition is `text.length < 200`). -/
theorem dedup_repeat (b : RawBlock) :
    (b.text.length < 200 → dedup_pass [] [b, b] = [b]) ∧
      (200 ≤ b.text.length → dedup_pass [] [b, b] = [b, b]) := by
  constructor
  · intro h
    simp [dedup_pass.eq_def, h]
  · intro h
    have h2 : ¬(b.text.length < 200) := by omega
    simp [dedup_pass.eq_def, h2]

theorem dedup_repeat_witness :
    ("x".data.length < 200 ∧
        dedup_pass [] [⟨"p", "x".data⟩, ⟨"p", "x".data⟩] = [⟨"p", "x".data⟩]) ∧
      (200 ≤ (List.replicate 250 'a').length ∧
        dedup_pass [] [⟨"p", List.replicate 250 'a'⟩, ⟨"p", List.replicate 250 'a'⟩] =
          [⟨"p", List.replicate 250 'a'⟩, ⟨"p", List.replicate 250 'a'⟩]) :=
  ⟨⟨by decide, (dedup_repeat ⟨"p", "x".data⟩).1 (by decide)⟩,
   ⟨by decide, (dedup_repeat ⟨"p", List.replicate 250 'a'⟩).2 (by decide)⟩⟩

/-- C9: a paragraph that starts with `"# "` is classified by the heading
rule alone — the classifier emits exactly one level-1 heading holding the
remainder and no block for any later rule; in particular `"# - item"`
yields one heading with text `"- item"` and no bulleted list item. -/
theorem paragraph_priority_exclusive :
    (∀ rest : Text, para_to_blocks ('#' :: ' ' :: rest) = [heading_block rest 1]) ∧
      para_to_blocks "# - item".data = [heading_block "- item".data 1] ∧
      ∀ b ∈ para_to_blocks "# - item".data, ∀ rich, b ≠ Block.bulleted rich := by
  have hmain : ∀ rest : Text,
      para_to_blocks ('#' :: ' ' :: rest) = [heading_block rest 1] := by
    intro rest
    simp [para_to_blocks, List.isPrefixOf]
  refine ⟨hmain, ?_, ?_⟩
  · exact hmain "- item".data
  · intro b hb rich
    rw [hmain "- item".data] at hb
    rw [List.mem_singleton] at hb
    subst hb
    simp [heading_block]

/-- C8: counterexample — the blockquote branch strips the whole leading
run of `'>'` and `' '` characters from each line (Python `lstrip("> ")`
takes a character set) and trims the remainder, so `"> >> keep"` renders
as `"keep"`, not as the claim's `">> keep"` (only the first `"> "`
removed, remainder unchanged). -/
theorem quote_strip_counterexample :
    para_to_blocks "> >> keep".data = [quote_block "keep".data] ∧
      "keep".data ≠ ">> keep".data := by
  constructor
  · decide
  · decide

theorem para_to_blocks_quote (para : Text) (h : "> ".data.isPrefixOf para) :
    para_to_blocks para =
      [Block.quote [text_obj
        (List.intercalate ['\n'] ((splitOnChar '\n' para).map
          (fun line => pyStrip (pyLstripSet ['>', ' '] line))))
        false false false none]] := by
  obtain ⟨t, ht⟩ := List.isPrefixOf_iff_prefix.mp h
  have hpara : para = '>' :: ' ' :: t := ht.symm
  subst hpara
  simp [para_to_blocks, List.isPrefixOf, quote_block, quote_text_of, text_obj]

/-- C8 (amended): a paragraph starting with `"> "` yields exactly one
blockquote block whose text is the paragraph's lines each with every
leading `'>'` and space character removed and trimmed of surrounding
whitespace, joined by newlines. -/
theorem quote_paragraph_blocks (para : Text) (h : "> ".data.isPrefixOf para) :
    para_to_blocks para =
      [Block.quote [text_obj
        (List.intercalate ['\n'] ((splitOnChar '\n' para).map
          (fun line => pyStrip (pyLstripSet ['>', ' '] line))))
        false false false none]] :=
  para_to_blocks_quote para h

theorem quote_paragraph_blocks_witness :
    ("> ".data.isPrefixOf "> a\n> b".data = true) ∧
      para_to_blocks "> a\n> b".data =
        [Block.quote [text_obj
          (List.intercalate ['\n'] ((splitOnChar '\n' "> a\n> b".data).map
            (fun line => pyStrip (pyLstripSet ['>', ' '] line))))
          false false false none]] :=
  ⟨by decide, quote_paragraph_blocks "> a\n> b".data (by decide)⟩

/-! ### Oversized-text handling: summary truncation vs content splitting -/

theorem split_text_length_le (text : Text) (maxLength : Nat) :
    ∀ c ∈ split_text text maxLength, c.length ≤ maxLength := by
  unfold split_text
  by_cases hle : text.length ≤ maxLength
  · rw [if_pos hle]
    intro c hc
    rw [List.mem_singleton] at hc
    subst hc
    exact hle
  · rw [if_neg hle]
    exact split_text_go_length_le _ _

theorem build_summary_blocks_shape (s : Text) (b : Block)
    (hb : b ∈ build_summary_blocks s) :
    (∃ t l, b = Block.heading l [t]) ∨
      (∃ e t, b = Block.callout e [t] ∧
        t.content.length ≤ MAX_BLOCK_TEXT_LENGTH) := by
  rw [build_summary_blocks] at hb
  split at hb
  · rw [List.mem_singleton] at hb
    subst hb
    right
    refine ⟨"📝", _, rfl, ?_⟩
    simp only [text_obj]
    exact List.length_take_le _ _
  · rw [List.mem_flatten] at hb
    obtain ⟨blks, hblks, hbmem⟩ := hb
    rw [List.mem_map] at hblks
    obtain ⟨sec, _, rfl⟩ := hblks
    rw [section_blocks] at hbmem
    split at hbmem
    · simp at hbmem
    · rw [List.mem_append] at hbmem
      rcases hbmem with hbmem | hbmem
      · rw [List.mem_singleton] at hbmem
        subst hbmem
        left
        exact ⟨_, _, rfl⟩
      · split at hbmem
        · simp at hbmem
        · rw [List.mem_singleton] at hbmem
          subst hbmem
          right
          refine ⟨_, _, rfl, ?_⟩
          simp only [text_obj]
          exact List.length_take_le _ _

/-- C4 (amended): the structured-summary renderer truncates — every
callout it emits carries at most `MAX_BLOCK_TEXT_LENGTH` characters, a
section body's excess being cut off — while the markdown content path
resolves code-payload overflow by splitting into sibling code blocks,
each within the limit. -/
theorem oversized_summary_truncates_content_splits :
    (∀ (summary : Text), ∀ b ∈ build_summary_blocks summary,
        ∀ e rich, b = Block.callout e rich →
          ∀ t ∈ rich, t.content.length ≤ MAX_BLOCK_TEXT_LENGTH) ∧
      (∀ para : Text, ∀ b ∈ code_path para,
        ∀ t ∈ blockTexts b, t.content.length ≤ MAX_BLOCK_TEXT_LENGTH) := by
  constructor
  · intro summary b hb e rich hcall t ht
    rcases build_summary_blocks_shape summary b hb with ⟨t2, l2, rfl⟩ | ⟨e2, t2, rfl, hlen⟩
    · simp at hcall
    · simp only [Block.callout.injEq] at hcall
      rw [← hcall.2] at ht
      rw [List.mem_singleton] at ht
      subst ht
      exact hlen
  · intro para b hb t ht
    rw [code_path, List.mem_map] at hb
    obtain ⟨chunk, hchunk, rfl⟩ := hb
    simp only [code_block, blockTexts, List.mem_singleton] at ht
    subst ht
    simp only [text_obj]
    exact split_text_length_le _ _ chunk hchunk

theorem findSub_none_of_head_notMem (k : Char) (ks : Text) :
    ∀ s : Text, (∀ c ∈ s, c ≠ k) → findSub (k :: ks) s = none := by
  intro s
  induction s with
  | nil => intro _; simp [findSub]
  | cons c cs ih =>
    intro h
    rw [findSub]
    have hck : c ≠ k := h c (by simp)
    rw [if_neg (by simp [List.isPrefixOf]; intro hkc; exact absurd hkc.symm hck)]
    rw [ih (fun x hx => h x (by simp [hx]))]
    rfl

theorem splitOnSub_of_none {sep s : Text} (h : findSub sep s = none) :
    splitOnSub sep s = [s] := by
  unfold splitOnSub
  rw [splitOnSub_go, h]

theorem pyStrip_of_ends {c d : Char} (mid : Text)
    (hc : isPySpace c = false) (hd : isPySpace d = false) :
    pyStrip (c :: (mid ++ [d])) = c :: (mid ++ [d]) := by
  have h1 : (c :: (mid ++ [d])).dropWhile isPySpace = c :: (mid ++ [d]) := by
    rw [List.dropWhile_cons]
    simp [hc]
  have h2 : (c :: (mid ++ [d])).reverse = d :: (mid.reverse ++ [c]) := by
    simp
  have h3 : (d :: (mid.reverse ++ [c])).dropWhile isPySpace =
      d :: (mid.reverse ++ [c]) := by
    rw [List.dropWhile_cons]
    simp [hd]
  unfold pyStrip
  rw [h1, h2, h3]
  simp

/-- The summary input of the truncation counterexample: one section whose
header is `"A"` and whose body is 2001 `'x'` characters. -/
def oversizedSummary : Text := 'A' :: '\n' :: List.replicate 2001 'x'

theorem findSub_oversizedSummary :
    findSub "\n\n".data oversizedSummary = none := by
  have hrep : ∀ c ∈ List.replicate 2001 'x', c ≠ '\n' := by
    intro c hc
    rw [List.mem_replicate] at hc
    rw [hc.2]
    decide
  rw [oversizedSummary]
  rw [findSub]
  rw [if_neg (by decide)]
  rw [findSub]
  rw [if_neg (by
    rw [show List.replicate 2001 'x' = 'x' :: List.replicate 2000 'x' from rfl]
    simp [List.isPrefixOf])]
  rw [findSub_none_of_head_notMem '\n' ['\n'] _ hrep]
  rfl

theorem pyStrip_oversizedSummary : pyStrip oversizedSummary = oversizedSummary := by
  have h : oversizedSummary = 'A' :: (('\n' :: List.replicate 2000 'x') ++ ['x']) := by
    rw [oversizedSummary]
    rw [show (2001 : Nat) = 2000 + 1 from rfl, List.replicate_succ']
    rfl
  rw [h]
  exact pyStrip_of_ends _ (by decide) (by decide)

theorem pyStrip_replicate_x (n : Nat) :
    pyStrip (List.replicate n 'x') = List.replicate n 'x' := by
  apply pyStrip_eq_self
  intro c hc
  rw [List.mem_replicate] at hc
  rw [hc.2]
  decide

theorem section_blocks_oversizedSummary :
    section_blocks oversizedSummary =
      [heading_block ['A'] 3,
       callout_block (List.replicate 2000 'x') "📝"] := by
  rw [section_blocks]
  rw [pyStrip_oversizedSummary]
  rw [if_neg (by rw [oversizedSummary]; simp)]
  have htake : takeUntil '\n' oversizedSummary =
      some (['A'], List.replicate 2001 'x') := by
    rw [oversizedSummary, takeUntil]
    rw [if_neg (by decide)]
    rw [takeUntil]
    rw [if_pos rfl]
  rw [htake]
  have hbody : pyStrip (List.replicate 2001 'x') = List.replicate 2001 'x' :=
    pyStrip_replicate_x 2001
  have hhead : pyStrip ['A'] = ['A'] := by decide
  simp only [hbody, hhead]
  rw [if_neg (by
    rw [show List.replicate 2001 'x' = 'x' :: List.replicate 2000 'x' from rfl]
    simp)]
  rw [List.take_replicate]
  rw [show EMOJI_KEYS.find? (fun k => k.data.isPrefixOf ['A']) = none from by decide]
  rw [show MAX_BLOCK_TEXT_LENGTH ⊓ 2001 = 2000 from by decide]
  rfl

/-- C4: counterexample — a structured summary whose section body holds
2001 characters is rendered with the body truncated to the first 2000:
the excess character is dropped (no emitted block contains the full
2001-character body), contradicting "must not drop the excess
characters". -/
theorem summary_truncation_counterexample :
    build_summary_blocks oversizedSummary =
      [heading_block ['A'] 3, callout_block (List.replicate 2000 'x') "📝"] ∧
      (∀ b ∈ build_summary_blocks oversizedSummary, ∀ t ∈ blockTexts b,
        ¬(List.replicate 2001 'x').Sublist t.content) ∧
      oversizedSummary = 'A' :: '\n' :: List.replicate 2001 'x' := by
  have hsplit : splitOnSub "\n\n".data oversizedSummary = [oversizedSummary] :=
    splitOnSub_of_none findSub_oversizedSummary
  have hmain : build_summary_blocks oversizedSummary =
      [heading_block ['A'] 3, callout_block (List.replicate 2000 'x') "📝"] := by
    rw [build_summary_blocks, hsplit]
    simp [section_blocks_oversizedSummary]
  refine ⟨hmain, ?_, rfl⟩
  intro b hb t ht hsub
  have hlen := hsub.length_le
  rw [List.length_replicate] at hlen
  rw [hmain] at hb
  rw [List.mem_cons, List.mem_singleton] at hb
  rcases hb with hb | hb
  · subst hb
    simp only [heading_block, blockTexts, List.mem_singleton] at ht
    subst ht
    simp only [text_obj] at hlen
    simp at hlen
  · subst hb
    simp only [callout_block, blockTexts, List.mem_singleton] at ht
    subst ht
    simp only [text_obj] at hlen
    rw [List.length_replicate] at hlen
    omega

theorem code_path_texts_le (para : Text) (b : Block) (hb : b ∈ code_path para) :
    ∀ t ∈ blockTexts b, t.content.length ≤ MAX_BLOCK_TEXT_LENGTH := by
  intro t ht
  rw [code_path, List.mem_map] at hb
  obtain ⟨chunk, hchunk, rfl⟩ := hb
  simp only [code_block, blockTexts, List.mem_singleton] at ht
  subst ht
  simp only [text_obj]
  exact split_text_length_le _ _ chunk hchunk

theorem para_to_blocks_code_bound (p : Text) (b : Block) (hb : b ∈ para_to_blocks p) :
    ∀ rich lang, b = Block.code rich lang →
      ∀ t ∈ rich, t.content.length ≤ MAX_BLOCK_TEXT_LENGTH := by
  intro rich lang heq t ht
  subst heq
  rw [para_to_blocks] at hb
  split at hb
  · rw [List.mem_singleton] at hb; simp [heading_block] at hb
  · split at hb
    · rw [List.mem_singleton] at hb; simp [heading_block] at hb
    · split at hb
      · rw [List.mem_singleton] at hb; simp [heading_block] at hb
      · split at hb
        · exact code_path_texts_le p _ hb t (by simpa [blockTexts] using ht)
        · split at hb
          · rw [List.mem_singleton] at hb; simp [quote_block] at hb
          · split at hb
            · rw [numbered_path, List.mem_flatten] at hb
              obtain ⟨blks, hblks, hmem⟩ := hb
              rw [List.mem_map] at hblks
              obtain ⟨line, _, rfl⟩ := hblks
              split at hmem
              · rw [List.mem_singleton] at hmem
                simp [numbered_list_block] at hmem
              · simp at hmem
            · split at hb
              · rw [bullet_path, List.mem_flatten] at hb
                obtain ⟨blks, hblks, hmem⟩ := hb
                rw [List.mem_map] at hblks
                obtain ⟨line0, _, rfl⟩ := hblks
                split at hmem
                · rw [List.mem_singleton] at hmem
                  simp [bulleted_list_block] at hmem
                · simp at hmem
              · split at hb
                · rw [List.mem_singleton] at hb
                  simp [paragraph_block] at hb
                · rw [List.mem_map] at hb
                  obtain ⟨chunk, _, hchunk⟩ := hb
                  simp [rich_paragraph_block] at hchunk

theorem parse_inline_markdown_shrink (t : Text) :
    spanTextLength (parse_inline_markdown t) ≤ t.length := by
  unfold parse_inline_markdown
  by_cases h : (scan_spans (t.length + 1) [] t).isEmpty
  · rw [if_pos h]
    simp [spanTextLength, text_obj]
  · rw [if_neg h]
    have := scan_spans_shrink (t.length + 1) [] t
    simpa using this

theorem build_content_blocks_code_bound (result : TranslationResult)
    (b : Block) (hb : b ∈ build_content_blocks result) :
    ∀ rich lang, b = Block.code rich lang →
      ∀ t ∈ rich, t.content.length ≤ MAX_BLOCK_TEXT_LENGTH := by
  intro rich lang heq t ht
  subst heq
  obtain ⟨orig, title, content, summary⟩ := result
  have hpara : Block.code rich lang ∈
      ((splitOnSub "\n\n".data content).map (fun para0 =>
        if (pyStrip para0).isEmpty then [] else para_to_blocks (pyStrip para0))).flatten →
      t.content.length ≤ MAX_BLOCK_TEXT_LENGTH := by
    intro hb1
    rw [List.mem_flatten] at hb1
    obtain ⟨blks, hblks, hmem⟩ := hb1
    rw [List.mem_map] at hblks
    obtain ⟨para0, _, rfl⟩ := hblks
    split at hmem
    · simp at hmem
    · exact para_to_blocks_code_bound _ _ hmem rich lang rfl t ht
  have hsum : ∀ s : Text, Block.code rich lang ∈ build_summary_blocks s →
      t.content.length ≤ MAX_BLOCK_TEXT_LENGTH := by
    intro s hs
    rcases build_summary_blocks_shape s _ hs with ⟨t2, l2, hshape⟩ | ⟨e2, t2, hshape, _⟩
    · simp at hshape
    · simp at hshape
  cases summary with
  | none =>
    rw [build_content_blocks] at hb
    simp only [List.mem_append] at hb
    rcases hb with (((hb | hb) | hb) | hb) | hb
    · simp at hb
    · simp at hb
    · simp [heading_block] at hb
    · exact hpara hb
    · simp [bookmark_block] at hb
  | some s =>
    rw [build_content_blocks] at hb
    simp only [List.mem_append] at hb
    rcases hb with (((hb | hb) | hb) | hb) | hb
    · simp at hb
    · replace hb : Block.code rich lang ∈
          (if s.isEmpty then []
           else [heading_block "要約".data 2] ++ build_summary_blocks s ++
             [Block.divider]) := hb
      by_cases hse : s.isEmpty
      · rw [if_pos hse] at hb
        simp at hb
      · rw [if_neg hse] at hb
        simp only [List.mem_append] at hb
        rcases hb with (hb | hb) | hb
        · simp [heading_block] at hb
        · exact hsum s hb
        · simp at hb
    · simp [heading_block] at hb
    · exact hpara hb
    · simp [bookmark_block] at hb

theorem splitOnChar_of_none {sep : Char} :
    ∀ s : Text, (∀ c ∈ s, c ≠ sep) → splitOnChar sep s = [s] := by
  intro s
  induction s with
  | nil => intro _; rfl
  | cons c cs ih =>
    intro h
    rw [splitOnChar]
    rw [if_neg (h c (by simp))]
    rw [ih (fun x hx => h x (by simp [hx]))]

theorem intercalate_singleton (sep : Text) (x : Text) :
    List.intercalate sep [x] = x := by
  simp [List.intercalate]

/-- The article content of the oversized-quote counterexample: one
blockquote paragraph whose text is 2001 characters long. -/
def oversizedQuoteContent : Text := '>' :: ' ' :: List.replicate 2001 'a'

/-- The translation result of the oversized-quote counterexample. -/
def oversizedQuoteResult : TranslationResult :=
  ⟨⟨['u']⟩, ['t'], oversizedQuoteContent, none⟩

theorem oversizedQuoteContent_noNl : ∀ c ∈ oversizedQuoteContent, c ≠ '\n' := by
  intro c hc
  rw [oversizedQuoteContent] at hc
  rw [List.mem_cons, List.mem_cons] at hc
  rcases hc with rfl | rfl | hc
  · decide
  · decide
  · rw [List.mem_replicate] at hc
    rw [hc.2]
    decide

theorem pyStrip_oversizedQuoteContent :
    pyStrip oversizedQuoteContent = oversizedQuoteContent := by
  have h : oversizedQuoteContent =
      '>' :: ((' ' :: List.replicate 2000 'a') ++ ['a']) := by
    rw [oversizedQuoteContent]
    rw [show (2001 : Nat) = 2000 + 1 from rfl, List.replicate_succ']
    rfl
  rw [h]
  exact pyStrip_of_ends _ (by decide) (by decide)

theorem para_to_blocks_oversizedQuoteContent :
    para_to_blocks oversizedQuoteContent =
      [Block.quote [text_obj (List.replicate 2001 'a') false false false none]] := by
  have hpre : "> ".data.isPrefixOf oversizedQuoteContent = true := by
    rw [oversizedQuoteContent]
    simp [List.isPrefixOf]
  rw [para_to_blocks_quote oversizedQuoteContent hpre]
  rw [splitOnChar_of_none oversizedQuoteContent oversizedQuoteContent_noNl]
  rw [List.map_cons, List.map_nil]
  rw [show pyLstripSet ['>', ' '] oversizedQuoteContent = List.replicate 2001 'a' from by
    rw [oversizedQuoteContent, pyLstripSet]
    rw [List.dropWhile_cons, if_pos (by decide)]
    rw [List.dropWhile_cons, if_pos (by decide)]
    exact dropWhile_eq_self_of_none (by
      intro c hc
      rw [List.mem_replicate] at hc
      rw [hc.2]
      decide)]
  rw [show pyStrip (List.replicate 2001 'a') = List.replicate 2001 'a' from
    pyStrip_eq_self (by
      intro c hc
      rw [List.mem_replicate] at hc
      rw [hc.2]
      decide)]
  rw [intercalate_singleton]

/-- C3: counterexample — a blockquote paragraph of 2001 characters is
rendered as a single quote block whose text exceeds
`MAX_BLOCK_TEXT_LENGTH`: only code blocks and rich paragraphs are split,
while quote (and heading, list-item, image-caption) blocks are emitted
unsplit. -/
theorem block_text_bound_counterexample :
    Block.quote [text_obj (List.replicate 2001 'a') false false false none] ∈
        build_content_blocks oversizedQuoteResult ∧
      MAX_BLOCK_TEXT_LENGTH <
        (text_obj (List.replicate 2001 'a') false false false none).content.length := by
  constructor
  · have hsplit : splitOnSub "\n\n".data oversizedQuoteContent =
        [oversizedQuoteContent] :=
      splitOnSub_of_none
        (findSub_none_of_head_notMem '\n' ['\n'] _ oversizedQuoteContent_noNl)
    have hflat : ((splitOnSub "\n\n".data oversizedQuoteContent).map (fun para0 =>
        if (pyStrip para0).isEmpty then [] else para_to_blocks (pyStrip para0))).flatten =
        [Block.quote [text_obj (List.replicate 2001 'a') false false false none]] := by
      rw [hsplit]
      rw [List.map_cons, List.map_nil]
      rw [pyStrip_oversizedQuoteContent]
      rw [if_neg (by rw [oversizedQuoteContent]; simp)]
      rw [para_to_blocks_oversizedQuoteContent]
      rfl
    show Block.quote [text_obj (List.replicate 2001 'a') false false false none] ∈
      build_content_blocks oversizedQuoteResult
    rw [build_content_blocks]
    simp only [List.mem_append]
    refine Or.inl (Or.inr ?_)
    rw [show oversizedQuoteResult.japanese_content = oversizedQuoteContent from rfl]
    rw [hflat]
    simp
  · simp only [text_obj, List.length_replicate, MAX_BLOCK_TEXT_LENGTH]
    omega

/-- C3 (amended): the length bound is enforced only where the renderer
splits — every code block carries chunks of at most
`MAX_BLOCK_TEXT_LENGTH` characters, and every paragraph block produced by
the rich-paragraph path carries spans totalling at most
`MAX_BLOCK_TEXT_LENGTH` characters (the chunking happens before inline
parsing); heading, quote, list-item and image-caption blocks are emitted
unsplit and may exceed the bound. -/
theorem rendered_block_text_bound :
    (∀ (result : TranslationResult), ∀ b ∈ build_content_blocks result,
        ∀ rich lang, b = Block.code rich lang →
          ∀ t ∈ rich, t.content.length ≤ MAX_BLOCK_TEXT_LENGTH) ∧
      (∀ text : Text,
        ∀ b ∈ (split_text text MAX_BLOCK_TEXT_LENGTH).map rich_paragraph_block,
          spanTextLength (blockTexts b) ≤ MAX_BLOCK_TEXT_LENGTH) := by
  constructor
  · exact fun result b hb => build_content_blocks_code_bound result b hb
  · intro text b hb
    rw [List.mem_map] at hb
    obtain ⟨chunk, hchunk, rfl⟩ := hb
    calc spanTextLength (blockTexts (rich_paragraph_block chunk))
        = spanTextLength (parse_inline_markdown chunk) := rfl
      _ ≤ chunk.length := parse_inline_markdown_shrink chunk
      _ ≤ MAX_BLOCK_TEXT_LENGTH := split_text_length_le _ _ chunk hchunk

theorem rendered_block_text_bound_witness :
    (Block.code [text_obj "x = 1".data false false false none] "python" ∈
        build_content_blocks ⟨⟨"u".data⟩, "t".data, "```python\nx = 1\n```".data, none⟩) ∧
      (∀ t ∈ [text_obj "x = 1".data false false false none],
        t.content.length ≤ MAX_BLOCK_TEXT_LENGTH) ∧
      (rich_paragraph_block "hi".data ∈
        (split_text "hi".data MAX_BLOCK_TEXT_LENGTH).map rich_paragraph_block) ∧
      spanTextLength (blockTexts (rich_paragraph_block "hi".data)) ≤
        MAX_BLOCK_TEXT_LENGTH := by
  refine ⟨by decide, ?_, by decide, ?_⟩
  · exact rendered_block_text_bound.1
      ⟨⟨"u".data⟩, "t".data, "```python\nx = 1\n```".data, none⟩
      (Block.code [text_obj "x = 1".data false false false none] "python")
      (by decide) [text_obj "x = 1".data false false false none] "python" rfl
  · exact rendered_block_text_bound.2 "hi".data _ (by decide)

theorem oversized_summary_truncates_content_splits_witness :
    ((text_obj "bb".data false false false none).content.length ≤
        MAX_BLOCK_TEXT_LENGTH) ∧
      ((text_obj "x = 1".data false false false none).content.length ≤
        MAX_BLOCK_TEXT_LENGTH) := by
  constructor
  · exact oversized_summary_truncates_content_splits.1 "A\nbb".data
      (Block.callout "📝" [text_obj "bb".data false false false none]) (by decide)
      "📝" [text_obj "bb".data false false false none] rfl _ (by decide)
  · exact oversized_summary_truncates_content_splits.2 "```python\nx = 1\n```".data
      (Block.code [text_obj "x = 1".data false false false none] "python")
      (by decide) _ (by decide)

theorem create_page_batches_conserve_witness :
    (create_page_batches ([] : List Block)).flatten = [] ∧
      ([] : List Block).length ≤ MAX_BLOCKS_PER_REQUEST :=
  ⟨(create_page_batches_conserve []).1,
   (create_page_batches_conserve []).2.2.2 [] (by simp [create_page_batches, chunkList])⟩

theorem paragraph_priority_exclusive_witness :
    para_to_blocks "# - item".data = [heading_block "- item".data 1] ∧
      heading_block "- item".data 1 ≠ Block.bulleted [] :=
  ⟨paragraph_priority_exclusive.2.1,
   paragraph_priority_exclusive.2.2 (heading_block "- item".data 1) (by decide) []⟩
